import Mathlib

/-!
Verification of the better-hub repository: the document-outline component
(heading extraction, tree building, flattening, filtering, rendering state,
session persistence, keyboard navigation) and the authenticated image-proxy
API route. Each TypeScript function is embedded as an executable Lean
definition; imperative state (the build stack, the DOM walk index) becomes
explicit state passing.
-/

namespace BetterHub

/-! ### JS string primitives

`jsIncludes` models `String.prototype.includes` (substring test) and
`String.toLower` stands in for `String.prototype.toLowerCase`. -/

/-- Does the pattern occur at the very start of the text? -/
def startsWithChars : List Char → List Char → Bool
  | _, [] => true
  | [], _ :: _ => false
  | c :: s, d :: p => c == d && startsWithChars s p

/-- Does the pattern occur anywhere in the text? -/
def includesChars : List Char → List Char → Bool
  | [], p => startsWithChars [] p
  | c :: s, p => startsWithChars (c :: s) p || includesChars s p

/-- JS `text.includes(pat)`. -/
def jsIncludes (s pat : String) : Bool := includesChars s.toList pat.toList

/-- JS `text.toLowerCase()` (ASCII case mapping, as `Char.toLower`). -/
def jsToLower (s : String) : String := String.mk (s.data.map Char.toLower)

/-! ### Heading data model

`HeadingNode` mirrors the `HeadingNode` interface of
`document-outline.tsx`: id, display text, nesting level, ordered children. -/

inductive HeadingNode where
  | mk (id : String) (text : String) (level : Nat) (children : List HeadingNode)
deriving Repr

def HeadingNode.id : HeadingNode → String
  | .mk i _ _ _ => i

def HeadingNode.text : HeadingNode → String
  | .mk _ t _ _ => t

def HeadingNode.level : HeadingNode → Nat
  | .mk _ _ l _ => l

def HeadingNode.children : HeadingNode → List HeadingNode
  | .mk _ _ _ cs => cs

/-- The flat record pushed by `extractHeadings` before `buildTree` runs. -/
structure FlatHeading where
  id : String
  text : String
  level : Nat
deriving Repr, DecidableEq

/-! ### flattenTree

Source `flattenTree` walks the forest in pre-order, pushing each node and
then recursing into its children. -/

mutual

def flattenNode : HeadingNode → List HeadingNode
  | .mk i t l cs => .mk i t l cs :: flattenList cs

def flattenList : List HeadingNode → List HeadingNode
  | [] => []
  | n :: rest => flattenNode n ++ flattenList rest

end

def flattenTree (nodes : List HeadingNode) : List HeadingNode :=
  flattenList nodes

/-! ### filterTree

Source `filterTree` lowercases the query once, keeps a node iff `matches`
holds (its lowercased text includes the query, or some child matches), and
rebuilds kept nodes with recursively pruned children. -/

mutual

def nodeMatches (q : String) : HeadingNode → Bool
  | .mk _ t _ cs => jsIncludes (jsToLower t) q || listMatches q cs

def listMatches (q : String) : List HeadingNode → Bool
  | [] => false
  | n :: rest => nodeMatches q n || listMatches q rest

end

mutual

def pruneNode (q : String) : HeadingNode → HeadingNode
  | .mk i t l cs => .mk i t l (pruneList q cs)

def pruneList (q : String) : List HeadingNode → List HeadingNode
  | [] => []
  | n :: rest =>
      (if nodeMatches q n then [pruneNode q n] else []) ++ pruneList q rest

end

def filterTree (nodes : List HeadingNode) (query : String) : List HeadingNode :=
  pruneList (jsToLower query) nodes

/-! ### buildTree

Source `buildTree` walks the flat list with a stack of open nodes, popping
while the stack's top level is `>=` the new item's level; the new node is
appended to the root list (empty stack) or to the top node's children, and
pushed. In the source the appended node is mutated in place through the
stack alias; here a node stays on the stack while open and is attached to
its parent (or the root list) at the moment it is popped, which appends
children in the same order. The build state is the completed root list
plus the stack, top first, each entry carrying the node's level exactly as
the source stores `{ node, level }`. -/

/-- The build state: completed top-level nodes, and the open stack (top first). -/
abbrev BuildState := List HeadingNode × List (HeadingNode × Nat)

/-- Attach a finished node: to the children of the next open node, or to the
root list when the stack is empty. -/
def attachTop (n : HeadingNode) : BuildState → BuildState
  | (root, []) => (root ++ [n], [])
  | (root, (.mk i t l cs, pl) :: rest) => (root, (.mk i t l (cs ++ [n]), pl) :: rest)

theorem attachTop_stack_length (n : HeadingNode) (s : BuildState) :
    (attachTop n s).2.length = s.2.length := by
  rcases s with ⟨root, _ | ⟨⟨⟨i, t, l, cs⟩, pl⟩, rest⟩⟩ <;> simp [attachTop]

/-- The `while (stack.length > 0 && stack[stack.length-1].level >= item.level)`
loop: close every open node at level `>= lvl`. -/
def popGE (lvl : Nat) : BuildState → BuildState
  | (root, []) => (root, [])
  | (root, (n, l) :: rest) =>
      if lvl ≤ l then popGE lvl (attachTop n (root, rest)) else (root, (n, l) :: rest)
termination_by s => s.2.length
decreasing_by
  have h := attachTop_stack_length n (root, rest)
  simp at h ⊢
  omega

/-- One iteration of the `for (const item of flat)` loop. -/
def pushItem (s : BuildState) (item : FlatHeading) : BuildState :=
  let s' := popGE item.level s
  (s'.1, (HeadingNode.mk item.id item.text item.level [], item.level) :: s'.2)

/-- Close every node still open when the loop ends, yielding the root list. -/
def flushState : BuildState → List HeadingNode
  | (root, []) => root
  | (root, (n, _) :: rest) => flushState (attachTop n (root, rest))
termination_by s => s.2.length
decreasing_by
  have h := attachTop_stack_length n (root, rest)
  simp at h ⊢
  omega

def buildTree (flat : List FlatHeading) : List HeadingNode :=
  flushState (flat.foldl pushItem ([], []))

/-! ### extractHeadings

Source `extractHeadings` queries `h1..h6`, and for each element (in DOM
order, with its `forEach` index) reads the level from the tag name,
normalizes `textContent` (`?.trim().replace(/\s+/g, " ") ?? ""`), takes the
DOM id or synthesizes `heading-<index>` when the id is falsy (empty), and
pushes the record only when the normalized text is non-empty. -/

/-- The six heading tags the `querySelectorAll("h1, h2, h3, h4, h5, h6")`
selector can return. -/
inductive HTag where
  | h1 | h2 | h3 | h4 | h5 | h6
deriving Repr, DecidableEq

/-- `parseInt(el.tagName[1], 10)`. -/
def HTag.levelOf : HTag → Nat
  | .h1 => 1 | .h2 => 2 | .h3 => 3 | .h4 => 4 | .h5 => 5 | .h6 => 6

/-- A matched DOM heading element: its tag, its `textContent` (`none` models
a null `textContent`), and its `id` attribute (`""` when absent, as in the
DOM). -/
structure DomHeading where
  tag : HTag
  textContent : Option String
  domId : String
deriving Repr, DecidableEq

/-- The whitespace class of the `/\s+/` regex (the common members; JS also
includes the remaining Unicode space separators, treated alike). -/
def isJsSpace (c : Char) : Bool :=
  c == ' ' || c == '\t' || c == '\n' || c == '\r' ||
    c == Char.ofNat 11 || c == Char.ofNat 12 || c == Char.ofNat 160

/-- JS `s.trim()`: strip whitespace from both ends. -/
def jsTrim (s : List Char) : List Char :=
  ((s.dropWhile isJsSpace).reverse.dropWhile isJsSpace).reverse

theorem length_dropWhile_le (p : Char → Bool) (l : List Char) :
    (l.dropWhile p).length ≤ l.length :=
  (List.dropWhile_suffix p).length_le

/-- JS `s.replace(/\s+/g, " ")`: collapse every whitespace run to one space. -/
def collapseWs : List Char → List Char
  | [] => []
  | c :: rest =>
      if isJsSpace c then ' ' :: collapseWs (rest.dropWhile isJsSpace)
      else c :: collapseWs rest
termination_by l => l.length
decreasing_by
  · have h := length_dropWhile_le isJsSpace rest
    simp
    omega
  · simp

/-- `el.textContent?.trim().replace(/\s+/g, " ") ?? ""`. -/
def normalizeText : Option String → String
  | none => ""
  | some s => String.mk (collapseWs (jsTrim s.data))

/-- The flat record built for the element at `forEach` index `index`. -/
def extractOne (index : Nat) (el : DomHeading) : FlatHeading :=
  { id := if el.domId = "" then "heading-" ++ toString index else el.domId
    text := normalizeText el.textContent
    level := el.tag.levelOf }

/-- The `elements.forEach` loop: records in order, indexed over all matched
elements, keeping only those whose normalized text is non-empty. -/
def extractFlat (elems : List DomHeading) : List FlatHeading :=
  go 0 elems
where
  go : Nat → List DomHeading → List FlatHeading
    | _, [] => []
    | index, el :: rest =>
        (if (extractOne index el).text = "" then [] else [extractOne index el]) ++
          go (index + 1) rest

def extractHeadings (elems : List DomHeading) : List HeadingNode :=
  buildTree (extractFlat elems)

/-! ### Rendering decision of `DocumentOutline`

`if (!visible || headings.length === 0) return null`, then
`displayTree = searchQuery ? filterTree(headings, searchQuery) : headings`,
`flatList = flattenTree(displayTree)`, and the list area shows the
"No headings match" placeholder when `flatList.length === 0 && searchQuery`,
otherwise the flat items. -/

inductive RenderOutcome where
  | nothing
  | placeholder (query : String)
  | items (nodes : List HeadingNode)
deriving Repr

def renderOutline (visible : Bool) (headings : List HeadingNode)
    (searchQuery : String) : RenderOutcome :=
  if !visible || headings.isEmpty then .nothing
  else
    let displayTree := if searchQuery ≠ "" then filterTree headings searchQuery
                       else headings
    let flatList := flattenTree displayTree
    if flatList.isEmpty && searchQuery ≠ "" then .placeholder searchQuery
    else .items flatList

/-! ### Session persistence of the expanded flag

Write: `sessionStorage.setItem(SESSION_KEY, String(isExpanded))` on every
change. Read (initializer): `stored !== null ? stored === "true" : true`. -/

def SESSION_KEY : String := "doc-outline-expanded"

/-- JS `String(b)` on a boolean. -/
def jsStringOfBool (b : Bool) : String := if b then "true" else "false"

/-- The key/value pair written by the persistence effect. -/
def persistExpanded (isExpanded : Bool) : String × String :=
  (SESSION_KEY, jsStringOfBool isExpanded)

/-- The initial value of `isExpanded`, from what session storage holds. -/
def initialExpanded (stored : Option String) : Bool :=
  match stored with
  | some s => s == "true"
  | none => true

/-! ### Keyboard navigation (`handleKeyDown`)

The focused index is a JS number starting at -1; on an empty flat list the
handler returns without changing it. -/

inductive OutlineKey where
  | arrowDown | arrowUp | enter | space | escape | home | keyEnd | other
deriving Repr, DecidableEq

/-- The new `focusedIndex` produced by `handleKeyDown` for a list of
`flatLen` items (keys that do not move focus leave `prev` unchanged). -/
def nextFocusedIndex (flatLen : Nat) (key : OutlineKey) (prev : Int) : Int :=
  if flatLen = 0 then prev
  else
    match key with
    | .arrowDown => min (prev + 1) ((flatLen : Int) - 1)
    | .arrowUp => max (prev - 1) 0
    | .home => 0
    | .keyEnd => (flatLen : Int) - 1
    | _ => prev

/-! ### The image-proxy route (`GET`)

The route's effects are passed in explicitly: the `url` query parameter,
the WHATWG URL parser (`new URL`, `none` when the constructor throws), the
session token (`getGitHubToken`), and `fetch` as a function from the
request actually issued to its outcome. `!x` on the JS strings is falsiness:
null/absent or empty. The value returned is the HTTP response paired with
the upstream request made, `none` when the handler short-circuits before
fetching. -/

structure ParsedURL where
  hostname : String
deriving Repr, DecidableEq

def ALLOWED_HOSTS : List String :=
  ["github.com",
   "raw.githubusercontent.com",
   "private-user-images.githubusercontent.com",
   "github-production-user-asset-6210df.s3.amazonaws.com"]

/-- The upstream request `fetch(url, { headers: { Authorization, Accept },
redirect: "follow" })`. -/
structure FetchCall where
  url : String
  authorization : String
  accept : String
deriving Repr, DecidableEq

/-- An upstream `Response`: status, `headers.get("content-type")` (`none`
for a missing header), body bytes. -/
structure UpstreamResponse where
  status : Nat
  contentType : Option String
  body : List Nat
deriving Repr, DecidableEq

/-- The outcome of the `try { await fetch ... }` block: a response, or a
thrown error. -/
inductive FetchResult where
  | resolved (res : UpstreamResponse)
  | thrown
deriving Repr

/-- `Response.ok`: status in the range 200..299. -/
def resOk (status : Nat) : Bool := 200 ≤ status && status ≤ 299

inductive ResponseBody where
  | jsonError (message : String)
  | bytes (data : List Nat)
deriving Repr, DecidableEq

/-- The handler's HTTP response: status, `Content-Type` and `Cache-Control`
headers, body. -/
structure ProxyResponse where
  status : Nat
  contentType : Option String
  cacheControl : Option String
  body : ResponseBody
deriving Repr, DecidableEq

/-- `NextResponse.json({ error: message }, { status })`. -/
def jsonResponse (message : String) (status : Nat) : ProxyResponse :=
  { status := status
    contentType := some "application/json"
    cacheControl := none
    body := .jsonError message }

def imageProxyGET (urlParam : Option String) (parseURL : String → Option ParsedURL)
    (token : Option String) (doFetch : FetchCall → FetchResult) :
    ProxyResponse × Option FetchCall :=
  match urlParam with
  | none => (jsonResponse "Missing url parameter" 400, none)
  | some url =>
    if url = "" then (jsonResponse "Missing url parameter" 400, none)
    else
      match parseURL url with
      | none => (jsonResponse "Invalid URL" 400, none)
      | some parsed =>
        if !(ALLOWED_HOSTS.contains parsed.hostname) then
          (jsonResponse "Host not allowed" 403, none)
        else
          match token with
          | none => (jsonResponse "Not authenticated" 401, none)
          | some tok =>
            if tok = "" then (jsonResponse "Not authenticated" 401, none)
            else
              let call : FetchCall :=
                { url := url
                  authorization := "token " ++ tok
                  accept := "image/*,*/*" }
              match doFetch call with
              | .thrown => (jsonResponse "Failed to fetch image" 502, some call)
              | .resolved res =>
                if !(resOk res.status) then
                  (jsonResponse ("Upstream error (" ++ toString res.status ++ ")")
                    res.status, some call)
                else
                  ({ status := 200
                     contentType := some (
                       match res.contentType with
                       | some ct => if ct = "" then "application/octet-stream" else ct
                       | none => "application/octet-stream")
                     cacheControl := some "public, max-age=3600, immutable"
                     body := .bytes res.body }, some call)

/-! ## Theorems -/

/-- The response is an error: the given status, and a JSON object carrying a
non-empty error message. -/
def jsonErrorWith (r : ProxyResponse) (status : Nat) : Prop :=
  r.status = status ∧ ∃ m, m ≠ "" ∧ r.body = .jsonError m

/-- C1: the image-proxy route returns 400 for a missing or unparsable `url`,
403 for a parsed URL whose hostname is outside the allow-list, 401 when no
token is available, 502 when the upstream fetch throws, and forwards the
upstream status when the fetch completes non-2xx; each error body is a JSON
object with an error message. -/
theorem imageProxy_error_statuses (parseURL : String → Option ParsedURL)
    (token : Option String) (doFetch : FetchCall → FetchResult)
    (urlParam : Option String) :
    ((urlParam = none ∨ urlParam = some "" ∨
        (∃ u, urlParam = some u ∧ parseURL u = none)) →
      jsonErrorWith (imageProxyGET urlParam parseURL token doFetch).1 400)
    ∧ (∀ u parsed, urlParam = some u → u ≠ "" → parseURL u = some parsed →
        parsed.hostname ∉ ALLOWED_HOSTS →
        jsonErrorWith (imageProxyGET urlParam parseURL token doFetch).1 403)
    ∧ (∀ u parsed, urlParam = some u → u ≠ "" → parseURL u = some parsed →
        parsed.hostname ∈ ALLOWED_HOSTS → (token = none ∨ token = some "") →
        jsonErrorWith (imageProxyGET urlParam parseURL token doFetch).1 401)
    ∧ (∀ u parsed tok, urlParam = some u → u ≠ "" → parseURL u = some parsed →
        parsed.hostname ∈ ALLOWED_HOSTS → token = some tok → tok ≠ "" →
        doFetch ⟨u, "token " ++ tok, "image/*,*/*"⟩ = .thrown →
        jsonErrorWith (imageProxyGET urlParam parseURL token doFetch).1 502)
    ∧ (∀ u parsed tok res, urlParam = some u → u ≠ "" → parseURL u = some parsed →
        parsed.hostname ∈ ALLOWED_HOSTS → token = some tok → tok ≠ "" →
        doFetch ⟨u, "token " ++ tok, "image/*,*/*"⟩ = .resolved res →
        resOk res.status = false →
        jsonErrorWith (imageProxyGET urlParam parseURL token doFetch).1 res.status) := by
  refine ⟨?_, ?_, ?_, ?_, ?_⟩
  · rintro (rfl | rfl | ⟨u, rfl, hp⟩)
    · exact ⟨rfl, "Missing url parameter", by decide, rfl⟩
    · exact ⟨rfl, "Missing url parameter", by decide, rfl⟩
    · rcases eq_or_ne u "" with rfl | hu
      · exact ⟨rfl, "Missing url parameter", by decide, rfl⟩
      · refine ⟨?_, "Invalid URL", by decide, ?_⟩ <;>
          simp [imageProxyGET, jsonResponse, hu, hp]
  · rintro u parsed rfl hu hp hh
    refine ⟨?_, "Host not allowed", by decide, ?_⟩ <;>
      simp [imageProxyGET, jsonResponse, hu, hp, hh]
  · rintro u parsed rfl hu hp hh (rfl | rfl) <;>
      (refine ⟨?_, "Not authenticated", by decide, ?_⟩ <;>
        simp [imageProxyGET, jsonResponse, hu, hp, hh])
  · rintro u parsed tok rfl hu hp hh rfl ht hf
    refine ⟨?_, "Failed to fetch image", by decide, ?_⟩ <;>
      simp [imageProxyGET, jsonResponse, hu, hp, hh, ht, hf]
  · rintro u parsed tok res rfl hu hp hh rfl ht hf hok
    refine ⟨?_, "Upstream error (" ++ toString res.status ++ ")", ?_, ?_⟩
    · simp [imageProxyGET, jsonResponse, hu, hp, hh, ht, hf, hok]
    · intro h
      have hd : ("Upstream error (" ++ toString res.status ++ ")").data = "".data := by
        rw [h]
      simp [String.data_append] at hd
    · simp [imageProxyGET, jsonResponse, hu, hp, hh, ht, hf, hok]
/-- C5 counterexample: the claim "the response Content-Type header equals
the upstream content-type" fails when the upstream 2xx response carries no
content-type header: the handler substitutes `application/octet-stream`. -/
theorem imageProxy_contentType_not_always_upstream :
    ¬ ((imageProxyGET (some "https://github.com/a.png")
          (fun _ => some ⟨"github.com"⟩)
          (some "tok")
          (fun _ => .resolved ⟨200, none, [1, 2, 3]⟩)).1.contentType
        = (none : Option String)) := by
  decide

/-- The `res.headers.get("content-type") || "application/octet-stream"`
fallback. -/
def contentTypeOrDefault : Option String → String
  | some ct => if ct = "" then "application/octet-stream" else ct
  | none => "application/octet-stream"

/-- C5 (amended): on the success path (valid allow-listed URL, token
present, upstream 2xx) the response body is exactly the upstream body; the
Content-Type equals the upstream content-type whenever the upstream
provides a non-empty one, and is `application/octet-stream` otherwise; and
the upstream request carries the obtained token in its Authorization
header (`token <token>`). -/
theorem imageProxy_success_passthrough (parseURL : String → Option ParsedURL)
    (doFetch : FetchCall → FetchResult) (u : String) (parsed : ParsedURL)
    (tok : String) (res : UpstreamResponse)
    (hu : u ≠ "") (hp : parseURL u = some parsed)
    (hh : parsed.hostname ∈ ALLOWED_HOSTS) (ht : tok ≠ "")
    (hf : doFetch ⟨u, "token " ++ tok, "image/*,*/*"⟩ = .resolved res)
    (hok : resOk res.status = true) :
    (imageProxyGET (some u) parseURL (some tok) doFetch).1.body = .bytes res.body
    ∧ (imageProxyGET (some u) parseURL (some tok) doFetch).1.contentType
        = some (contentTypeOrDefault res.contentType)
    ∧ (∀ ct, res.contentType = some ct → ct ≠ "" →
        (imageProxyGET (some u) parseURL (some tok) doFetch).1.contentType = some ct)
    ∧ (imageProxyGET (some u) parseURL (some tok) doFetch).2
        = some ⟨u, "token " ++ tok, "image/*,*/*"⟩ := by
  refine ⟨?_, ?_, ?_, ?_⟩
  · simp [imageProxyGET, hu, hp, hh, ht, hf, hok]
  · simp [imageProxyGET, contentTypeOrDefault, hu, hp, hh, ht, hf, hok]
  · rintro ct hct hne
    simp [imageProxyGET, hu, hp, hh, ht, hf, hok, hct, hne]
  · simp [imageProxyGET, hu, hp, hh, ht, hf, hok]

/-- C5 witness: the amended success-path theorem at a concrete request. -/
theorem imageProxy_success_passthrough_witness :
    (imageProxyGET (some "https://github.com/a.png")
        (fun _ => some ⟨"github.com"⟩) (some "tok")
        (fun _ => .resolved ⟨200, some "image/png", [7]⟩)).1.body
      = .bytes [7]
    ∧ (imageProxyGET (some "https://github.com/a.png")
        (fun _ => some ⟨"github.com"⟩) (some "tok")
        (fun _ => .resolved ⟨200, some "image/png", [7]⟩)).1.contentType
      = some (contentTypeOrDefault (some "image/png"))
    ∧ (∀ ct, (some "image/png" : Option String) = some ct → ct ≠ "" →
        (imageProxyGET (some "https://github.com/a.png")
          (fun _ => some ⟨"github.com"⟩) (some "tok")
          (fun _ => .resolved ⟨200, some "image/png", [7]⟩)).1.contentType = some ct)
    ∧ (imageProxyGET (some "https://github.com/a.png")
        (fun _ => some ⟨"github.com"⟩) (some "tok")
        (fun _ => .resolved ⟨200, some "image/png", [7]⟩)).2
      = some ⟨"https://github.com/a.png", "token " ++ "tok", "image/*,*/*"⟩ :=
  imageProxy_success_passthrough
    (fun _ => some ⟨"github.com"⟩)
    (fun _ => .resolved ⟨200, some "image/png", [7]⟩)
    "https://github.com/a.png" ⟨"github.com"⟩ "tok" ⟨200, some "image/png", [7]⟩
    (by decide) rfl (by decide) (by decide) rfl (by decide)

/-- C6: with the outline visible, an empty heading list renders nothing,
and a non-empty query under which the filtered tree is empty renders the
"No headings match" placeholder. -/
theorem renderOutline_empty_states (headings : List HeadingNode) (q : String) :
    (renderOutline true [] q = .nothing)
    ∧ (headings ≠ [] → q ≠ "" → filterTree headings q = [] →
        renderOutline true headings q = .placeholder q) := by
  constructor
  · simp [renderOutline]
  · intro hne hq hf
    simp [renderOutline, hne, hq, hf, flattenTree, flattenList]

/-- C7: the expanded flag is persisted under the session key
`doc-outline-expanded` as the string `"true"` or `"false"`; initialization
reads it back (round-trips), and defaults to expanded when nothing is
stored. -/
theorem expanded_persistence_roundTrip (b : Bool) :
    (persistExpanded b).1 = "doc-outline-expanded"
    ∧ ((persistExpanded b).2 = "true" ∨ (persistExpanded b).2 = "false")
    ∧ initialExpanded (some (persistExpanded b).2) = b
    ∧ initialExpanded none = true := by
  cases b <;> simp [persistExpanded, jsStringOfBool, initialExpanded, SESSION_KEY]

/-- C10: on a non-empty flat list, each navigation key (ArrowDown, ArrowUp,
Home, End) maps any prior focused index in `{-1} ∪ [0, length-1]` to an
index within `[0, length-1]`. -/
theorem nextFocusedIndex_in_bounds (flatLen : Nat) (prev : Int)
    (hlen : 0 < flatLen) (hlo : -1 ≤ prev) (hhi : prev ≤ (flatLen : Int) - 1) :
    ∀ key ∈ [OutlineKey.arrowDown, .arrowUp, .home, .keyEnd],
      0 ≤ nextFocusedIndex flatLen key prev
      ∧ nextFocusedIndex flatLen key prev ≤ (flatLen : Int) - 1 := by
  have hlen' : flatLen ≠ 0 := Nat.pos_iff_ne_zero.mp hlen
  intro key hkey
  fin_cases hkey <;> · simp [nextFocusedIndex, hlen']; omega

/-- C10 witness: the bounds at a concrete list length and the initial
focused index -1. -/
theorem nextFocusedIndex_in_bounds_witness :
    0 ≤ nextFocusedIndex 3 OutlineKey.arrowUp (-1)
    ∧ nextFocusedIndex 3 OutlineKey.arrowUp (-1) ≤ (3 : Int) - 1 :=
  nextFocusedIndex_in_bounds 3 (-1) (by decide) (by decide) (by decide)
    OutlineKey.arrowUp (by decide)

/-- Induction over a heading node through its list of children. -/
theorem headingStrongInduction {P : HeadingNode → Prop}
    (ih : ∀ i t l cs, (∀ c ∈ cs, P c) → P (HeadingNode.mk i t l cs)) :
    ∀ n, P n
  | .mk i t l cs => ih i t l cs (fun c hc => headingStrongInduction ih c)
termination_by n => sizeOf n
decreasing_by
  have h := List.sizeOf_lt_of_mem hc
  simp
  omega

theorem jsIncludes_empty_pat (s : String) : jsIncludes s "" = true := by
  rcases s with ⟨_ | ⟨c, l⟩⟩ <;> simp [jsIncludes, includesChars, startsWithChars, String.toList]

theorem nodeMatches_empty (n : HeadingNode) : nodeMatches "" n = true := by
  rcases n with ⟨i, t, l, cs⟩
  simp [nodeMatches, jsIncludes_empty_pat]

theorem listMatches_append (q : String) (a b : List HeadingNode) :
    listMatches q (a ++ b) = (listMatches q a || listMatches q b) := by
  induction a with
  | nil => simp [listMatches]
  | cons c rest ihr => simp [listMatches, ihr, Bool.or_assoc]

theorem pruneList_append (q : String) (a b : List HeadingNode) :
    pruneList q (a ++ b) = pruneList q a ++ pruneList q b := by
  induction a with
  | nil => simp [pruneList]
  | cons c rest ihr => simp [pruneList, ihr]

theorem flattenList_append (a b : List HeadingNode) :
    flattenList (a ++ b) = flattenList a ++ flattenList b := by
  induction a with
  | nil => simp [flattenList]
  | cons c rest ihr => simp [flattenList, ihr]

theorem pruneNode_eta (q : String) (n : HeadingNode) :
    pruneNode q n = HeadingNode.mk n.id n.text n.level (pruneList q n.children) := by
  rcases n with ⟨i, t, l, cs⟩
  simp [pruneNode, HeadingNode.id, HeadingNode.text, HeadingNode.level, HeadingNode.children]

theorem pruneList_eq_filter_map (q : String) (nodes : List HeadingNode) :
    pruneList q nodes = (nodes.filter (nodeMatches q)).map
      (fun n => HeadingNode.mk n.id n.text n.level (pruneList q n.children)) := by
  induction nodes with
  | nil => simp [pruneList]
  | cons n rest ihr =>
    by_cases h : nodeMatches q n = true
    · simp [pruneList, h, ihr, List.filter_cons, pruneNode_eta]
    · simp [pruneList, h, ihr, List.filter_cons]

theorem listMatches_iff_aux (q : String) (cs : List HeadingNode)
    (ih : ∀ c ∈ cs, (nodeMatches q c = true ↔
      ∃ d ∈ flattenNode c, jsIncludes (jsToLower d.text) q = true)) :
    listMatches q cs = true ↔
      ∃ d ∈ flattenList cs, jsIncludes (jsToLower d.text) q = true := by
  induction cs with
  | nil => simp [listMatches, flattenList]
  | cons c rest ihr =>
    have hc := ih c (by simp)
    have hr := ihr (fun c hmem => ih c (by simp [hmem]))
    simp only [listMatches, flattenList, Bool.or_eq_true, List.mem_append, hc, hr]
    constructor
    · rintro (⟨d, hd, hp⟩ | ⟨d, hd, hp⟩)
      · exact ⟨d, Or.inl hd, hp⟩
      · exact ⟨d, Or.inr hd, hp⟩
    · rintro ⟨d, hd | hd, hp⟩
      · exact Or.inl ⟨d, hd, hp⟩
      · exact Or.inr ⟨d, hd, hp⟩

theorem nodeMatches_iff_descendant (q : String) :
    ∀ n : HeadingNode, nodeMatches q n = true ↔
      ∃ d ∈ flattenNode n, jsIncludes (jsToLower d.text) q = true := by
  refine headingStrongInduction ?_
  intro i t l cs ih
  have haux := listMatches_iff_aux q cs ih
  simp only [nodeMatches, flattenNode, Bool.or_eq_true, List.mem_cons, haux]
  constructor
  · rintro (hp | ⟨d, hd, hp⟩)
    · exact ⟨HeadingNode.mk i t l cs, Or.inl rfl, by simpa [HeadingNode.text] using hp⟩
    · exact ⟨d, Or.inr hd, hp⟩
  · rintro ⟨d, rfl | hd, hp⟩
    · exact Or.inl (by simpa [HeadingNode.text] using hp)
    · exact Or.inr ⟨d, hd, hp⟩

theorem pruneNode_empty_query : ∀ n : HeadingNode, pruneNode "" n = n := by
  refine headingStrongInduction ?_
  intro i t l cs ih
  have : pruneList "" cs = cs := by
    induction cs with
    | nil => simp [pruneList]
    | cons c rest ihr =>
      have hc := ih c (by simp)
      have hr := ihr (fun c hmem => ih c (by simp [hmem]))
      simp [pruneList, nodeMatches_empty, hc, hr]
  simp [pruneNode, this]

theorem nodeMatches_pruneNode (q : String) :
    ∀ n : HeadingNode, nodeMatches q n = true → nodeMatches q (pruneNode q n) = true := by
  refine headingStrongInduction ?_
  intro i t l cs ih hm
  simp only [nodeMatches, Bool.or_eq_true] at hm
  rcases hm with hp | hl
  · simp [pruneNode, nodeMatches, hp]
  · have : listMatches q (pruneList q cs) = true := by
      induction cs with
      | nil => simp [listMatches] at hl
      | cons c rest ihr =>
        simp only [listMatches, Bool.or_eq_true] at hl
        rcases hl with hc | hr
        · have := ih c (by simp) hc
          simp [pruneList, hc, listMatches_append, listMatches, this]
        · have hrec := ihr (fun c hmem => ih c (by simp [hmem])) hr
          simp [pruneList, listMatches_append, listMatches, hrec]
    simp [pruneNode, nodeMatches, this]

theorem pruneNode_idem (q : String) :
    ∀ n : HeadingNode, pruneNode q (pruneNode q n) = pruneNode q n := by
  refine headingStrongInduction ?_
  intro i t l cs ih
  have : pruneList q (pruneList q cs) = pruneList q cs := by
    induction cs with
    | nil => simp [pruneList]
    | cons c rest ihr =>
      have hr := ihr (fun c hmem => ih c (by simp [hmem]))
      by_cases hc : nodeMatches q c = true
      · have hkeep := nodeMatches_pruneNode q c hc
        have hidem := ih c (by simp)
        simp [pruneList, hc, pruneList_append, hkeep, hidem, hr]
      · simp [pruneList, hc, hr]
  simp [pruneNode, this]

theorem pruneList_idem (q : String) (nodes : List HeadingNode) :
    pruneList q (pruneList q nodes) = pruneList q nodes := by
  induction nodes with
  | nil => simp [pruneList]
  | cons n rest ihr =>
    by_cases hn : nodeMatches q n = true
    · simp [pruneList, hn, pruneList_append, nodeMatches_pruneNode q n hn,
        pruneNode_idem, ihr]
    · simp [pruneList, hn, ihr]

/-- C2: filterTree keeps a node iff its text (or some descendant-or-self
text, the node itself included via the pre-order subtree) contains the
lowercased query as a substring of its lowercased text; kept nodes are
rebuilt with recursively pruned children, and sibling order is preserved
(the kept list is a filter of the input list). -/
theorem filterTree_keeps_matching_subtrees (nodes : List HeadingNode) (query : String) :
    (filterTree nodes query
      = (nodes.filter (nodeMatches (jsToLower query))).map
          (fun n => HeadingNode.mk n.id n.text n.level (filterTree n.children query)))
    ∧ (∀ n : HeadingNode, nodeMatches (jsToLower query) n = true ↔
        ∃ d ∈ flattenNode n, jsIncludes (jsToLower d.text) (jsToLower query) = true) :=
  ⟨pruneList_eq_filter_map (jsToLower query) nodes,
    nodeMatches_iff_descendant (jsToLower query)⟩

/-- C9: filtering with the empty query is the identity, and filtering an
already-filtered tree with the same query returns it unchanged. -/
theorem filterTree_empty_query_and_idempotent (nodes : List HeadingNode) (query : String) :
    filterTree nodes "" = nodes
    ∧ filterTree (filterTree nodes query) query = filterTree nodes query := by
  constructor
  · show pruneList (jsToLower "") nodes = nodes
    have h : jsToLower "" = "" := rfl
    rw [h]
    induction nodes with
    | nil => simp [pruneList]
    | cons n rest ihr => simp [pruneList, nodeMatches_empty, pruneNode_empty_query, ihr]
  · exact pruneList_idem (jsToLower query) nodes

/-- The (id, text, level) content of a node, its children dropped. -/
def HeadingNode.toFlat : HeadingNode → FlatHeading
  | .mk i t l _ => ⟨i, t, l⟩

/-- Pre-order contents of the open stack, bottom-most node first. -/
def stackFlatten : List (HeadingNode × Nat) → List HeadingNode
  | [] => []
  | (n, _) :: rest => stackFlatten rest ++ flattenNode n

/-- Pre-order contents of a whole build state. -/
def stateFlatten (s : BuildState) : List HeadingNode :=
  flattenList s.1 ++ stackFlatten s.2

theorem flattenList_singleton (n : HeadingNode) : flattenList [n] = flattenNode n := by
  rw [flattenList, flattenList]
  simp

theorem stateFlatten_attachTop (n : HeadingNode) (root : List HeadingNode)
    (rest : List (HeadingNode × Nat)) (l : Nat) :
    (stateFlatten (attachTop n (root, rest))).map HeadingNode.toFlat
      = (stateFlatten (root, (n, l) :: rest)).map HeadingNode.toFlat := by
  rcases rest with _ | ⟨⟨⟨i, t, lv, cs⟩, pl⟩, rest'⟩
  · simp [attachTop, stateFlatten, stackFlatten, flattenList_append,
      flattenList_singleton]
  · simp [attachTop, stateFlatten, stackFlatten, flattenNode, flattenList_append,
      flattenList_singleton, HeadingNode.toFlat]

theorem flushState_flatten (s : BuildState) :
    (flattenList (flushState s)).map HeadingNode.toFlat
      = (stateFlatten s).map HeadingNode.toFlat := by
  induction s using flushState.induct with
  | case1 root => simp [flushState, stateFlatten, stackFlatten]
  | case2 root n l rest ih =>
    rw [flushState, ih, stateFlatten_attachTop n root rest l]

theorem popGE_flatten (lvl : Nat) (s : BuildState) :
    (stateFlatten (popGE lvl s)).map HeadingNode.toFlat
      = (stateFlatten s).map HeadingNode.toFlat := by
  induction s using popGE.induct lvl with
  | case1 root => rw [popGE]
  | case2 root n l rest hle ih =>
    rw [popGE, if_pos hle, ih, stateFlatten_attachTop n root rest l]
  | case3 root n l rest hle =>
    rw [popGE, if_neg hle]

theorem pushItem_flatten (s : BuildState) (item : FlatHeading) :
    (stateFlatten (pushItem s item)).map HeadingNode.toFlat
      = (stateFlatten s).map HeadingNode.toFlat ++ [item] := by
  rw [← popGE_flatten item.level s]
  rcases h : popGE item.level s with ⟨root, stack⟩
  simp [pushItem, h, stateFlatten, stackFlatten, flattenList_singleton, flattenNode,
    flattenList, HeadingNode.toFlat]

theorem foldl_pushItem_flatten (flat : List FlatHeading) (s : BuildState) :
    (stateFlatten (flat.foldl pushItem s)).map HeadingNode.toFlat
      = (stateFlatten s).map HeadingNode.toFlat ++ flat := by
  induction flat generalizing s with
  | nil => simp
  | cons item rest ih => simp [List.foldl_cons, ih, pushItem_flatten]

theorem flattenTree_buildTree_eq (flat : List FlatHeading) :
    (flattenTree (buildTree flat)).map HeadingNode.toFlat = flat := by
  rw [flattenTree, buildTree, flushState_flatten, foldl_pushItem_flatten]
  simp [stateFlatten, stackFlatten, flattenList]

/-- C4: flattening the built tree in pre-order returns exactly the input
flat list of (id, text, level) records, in order. -/
theorem flattenTree_buildTree_roundTrip (flat : List FlatHeading) :
    (flattenTree (buildTree flat)).map HeadingNode.toFlat = flat :=
  flattenTree_buildTree_eq flat

/-! Strict nesting: every child's level is strictly greater than its
parent's, recursively. -/

mutual

def nodeWellNested : HeadingNode → Bool
  | .mk _ _ lvl cs => childrenDeeper lvl cs

def childrenDeeper (lvl : Nat) : List HeadingNode → Bool
  | [] => true
  | c :: rest => (decide (lvl < c.level) && nodeWellNested c) && childrenDeeper lvl rest

end

theorem childrenDeeper_append (lvl : Nat) (a b : List HeadingNode) :
    childrenDeeper lvl (a ++ b) = (childrenDeeper lvl a && childrenDeeper lvl b) := by
  induction a with
  | nil => simp [childrenDeeper]
  | cons c rest ih => simp [childrenDeeper, ih, Bool.and_assoc]

/-- The invariant maintained over the build state: completed root nodes are
well nested; every open node is well nested and its stack entry records
its own level; stack levels strictly decrease from top to bottom. -/
def SInv (s : BuildState) : Prop :=
  (∀ n ∈ s.1, nodeWellNested n = true)
  ∧ (∀ p ∈ s.2, nodeWellNested p.1 = true ∧ p.1.level = p.2)
  ∧ List.Chain' (fun a b => b < a) (s.2.map Prod.snd)

theorem sInv_attachTop (root : List HeadingNode) (n : HeadingNode) (l : Nat)
    (rest : List (HeadingNode × Nat)) (h : SInv (root, (n, l) :: rest)) :
    SInv (attachTop n (root, rest)) := by
  obtain ⟨hroot, hstack, hchain⟩ := h
  obtain ⟨hn, hnl⟩ := hstack (n, l) (by simp)
  have hnl' : n.level = l := hnl
  rcases rest with _ | ⟨⟨⟨i, t, lv, cs⟩, pl⟩, rest'⟩
  · simp only [attachTop]
    refine ⟨?_, by simp, by simp⟩
    intro m hm
    rcases List.mem_append.mp hm with hm | hm
    · exact hroot m hm
    · simp at hm
      subst hm
      exact hn
  · obtain ⟨hp, hpl⟩ := hstack (⟨i, t, lv, cs⟩, pl) (by simp)
    simp only [List.map_cons, List.chain'_cons] at hchain
    have hlt : lv < n.level := by
      have h1 : pl < l := hchain.1
      simp [HeadingNode.level] at hpl
      omega
    refine ⟨hroot, ?_, ?_⟩
    · intro p hp2
      rcases List.mem_cons.mp hp2 with rfl | hp2
      · refine ⟨?_, by simpa [HeadingNode.level] using hpl⟩
        simp only [nodeWellNested, childrenDeeper_append] at hp ⊢
        simp [hp, childrenDeeper, hlt, hn]
      · exact hstack p (by simp [hp2])
    · simpa [attachTop] using hchain.2

theorem sInv_popGE (lvl : Nat) (s : BuildState) (h : SInv s) : SInv (popGE lvl s) := by
  induction s using popGE.induct lvl with
  | case1 root => rwa [popGE]
  | case2 root n l rest hle ih =>
    rw [popGE, if_pos hle]
    exact ih (sInv_attachTop root n l rest h)
  | case3 root n l rest hle => rwa [popGE, if_neg hle]

theorem popGE_top_lt (lvl : Nat) (s : BuildState) :
    ∀ n l rest, (popGE lvl s).2 = (n, l) :: rest → l < lvl := by
  induction s using popGE.induct lvl with
  | case1 root => intro n l rest h; rw [popGE] at h; simp at h
  | case2 root n0 l0 rest0 hle ih =>
    intro n l rest h
    rw [popGE, if_pos hle] at h
    exact ih n l rest h
  | case3 root n0 l0 rest0 hle =>
    intro n l rest h
    rw [popGE, if_neg hle] at h
    simp at h
    obtain ⟨⟨rfl, rfl⟩, rfl⟩ := h
    omega

theorem sInv_pushItem (s : BuildState) (item : FlatHeading) (h : SInv s) :
    SInv (pushItem s item) := by
  have hs' := sInv_popGE item.level s h
  obtain ⟨hroot, hstack, hchain⟩ := hs'
  refine ⟨hroot, ?_, ?_⟩
  · intro p hp
    rcases List.mem_cons.mp hp with rfl | hp
    · exact ⟨by simp [nodeWellNested, childrenDeeper], by simp [HeadingNode.level]⟩
    · exact hstack p hp
  · show List.Chain' (fun a b => b < a)
      (item.level :: (popGE item.level s).2.map Prod.snd)
    rcases hs : (popGE item.level s).2 with _ | ⟨⟨n, l⟩, rest⟩
    · simp
    · have hlt := popGE_top_lt item.level s n l rest hs
      rw [hs] at hchain
      simp only [List.map_cons, List.chain'_cons] at hchain ⊢
      exact ⟨hlt, hchain⟩

theorem flushState_wellNested (s : BuildState) (h : SInv s) :
    ∀ m ∈ flushState s, nodeWellNested m = true := by
  induction s using flushState.induct with
  | case1 root =>
    rw [flushState]
    exact h.1
  | case2 root n l rest ih =>
    rw [flushState]
    exact ih (sInv_attachTop root n l rest h)

theorem sInv_foldl (flat : List FlatHeading) (s : BuildState) (h : SInv s) :
    SInv (flat.foldl pushItem s) := by
  induction flat generalizing s with
  | nil => exact h
  | cons item rest ih => exact ih (pushItem s item) (sInv_pushItem s item h)

theorem childrenDeeper_iff (l : Nat) (cs : List HeadingNode) :
    childrenDeeper l cs = true ↔ ∀ c ∈ cs, l < c.level ∧ nodeWellNested c = true := by
  induction cs with
  | nil => simp [childrenDeeper]
  | cons c rest ih => simp [childrenDeeper, ih, and_assoc]

/-- C3: every node of the tree built from a flat heading list is well
nested: each node has only children of strictly greater level, at every
depth (`nodeWellNested` unfolds to exactly that, second conjunct). -/
theorem buildTree_children_strictly_deeper (flat : List FlatHeading) :
    ((buildTree flat).all nodeWellNested = true)
    ∧ (∀ i t l cs, nodeWellNested (HeadingNode.mk i t l cs) = true ↔
        ∀ c ∈ cs, l < c.level ∧ nodeWellNested c = true) := by
  constructor
  · rw [List.all_eq_true, buildTree]
    exact fun m hm => flushState_wellNested _
      (sInv_foldl flat ([], []) ⟨by simp, by simp, by simp⟩) m hm
  · intro i t l cs
    simp [nodeWellNested, childrenDeeper_iff]

/-! Whitespace normal form: what `trim` + collapse produces. -/

/-- The first character, if any, is not whitespace. -/
def noLeadSpace (l : List Char) : Bool :=
  match l.head? with
  | none => true
  | some c => !isJsSpace c

/-- The last character, if any, is not whitespace. -/
def lastNonSpace (l : List Char) : Bool :=
  match l.getLast? with
  | none => true
  | some c => !isJsSpace c

/-- Every whitespace character is a single `' '` immediately followed by a
non-whitespace character. -/
def normd : List Char → Bool
  | [] => true
  | c :: rest =>
      if isJsSpace c then
        (c == ' ' && (match rest with
          | [] => false
          | d :: _ => !isJsSpace d)) && normd rest
      else normd rest

/-- `trim` + collapse, as `extractHeadings` normalizes heading text. -/
def normalizeStr (s : String) : String :=
  String.mk (collapseWs (jsTrim s.data))

theorem noLeadSpace_dropWhile (l : List Char) :
    noLeadSpace (l.dropWhile isJsSpace) = true := by
  induction l with
  | nil => simp [List.dropWhile, noLeadSpace]
  | cons c rest ih =>
    by_cases h : isJsSpace c = true
    · simpa [List.dropWhile_cons, h] using ih
    · simp [List.dropWhile_cons, h, noLeadSpace]

theorem getLast?_of_suffix {l s : List Char} (h : s <:+ l) (hne : s ≠ []) :
    s.getLast? = l.getLast? := by
  obtain ⟨t, rfl⟩ := h
  rw [List.getLast?_append]
  rcases hs : s.getLast? with _ | c
  · exact absurd (by simpa using hs) hne
  · rfl

theorem getLast?_cons_ne (c : Char) (rest : List Char) (h : rest ≠ []) :
    (c :: rest).getLast? = rest.getLast? := by
  rcases rest with _ | ⟨d, r⟩
  · exact absurd rfl h
  · exact List.getLast?_cons_cons

theorem noLeadSpace_reverse (l : List Char) :
    noLeadSpace l.reverse = lastNonSpace l := by
  rw [noLeadSpace, lastNonSpace, List.head?_reverse]

theorem lastNonSpace_reverse (l : List Char) :
    lastNonSpace l.reverse = noLeadSpace l := by
  rw [lastNonSpace, noLeadSpace, List.getLast?_reverse]

theorem lastNonSpace_dropWhile (l : List Char) (h : lastNonSpace l = true) :
    lastNonSpace (l.dropWhile isJsSpace) = true := by
  rcases hm : l.dropWhile isJsSpace with _ | ⟨d, m'⟩
  · simp [lastNonSpace]
  · rw [lastNonSpace]
    have heq : (d :: m').getLast? = l.getLast? := by
      rw [← hm]
      exact getLast?_of_suffix (List.dropWhile_suffix isJsSpace) (by simp [hm])
    rw [heq]
    rw [lastNonSpace] at h
    exact h

theorem jsTrim_noLead_lastNonSpace (l : List Char) :
    noLeadSpace (jsTrim l) = true ∧ lastNonSpace (jsTrim l) = true := by
  rw [jsTrim]
  constructor
  · rw [noLeadSpace_reverse]
    apply lastNonSpace_dropWhile
    rw [lastNonSpace_reverse]
    exact noLeadSpace_dropWhile l
  · rw [lastNonSpace_reverse]
    exact noLeadSpace_dropWhile ((l.dropWhile isJsSpace).reverse)

theorem collapseWs_cons_not_space (c : Char) (rest : List Char)
    (h : ¬ isJsSpace c = true) :
    collapseWs (c :: rest) = c :: collapseWs rest := by
  rw [collapseWs, if_neg h]

theorem collapseWs_cons_space (c : Char) (rest : List Char)
    (h : isJsSpace c = true) :
    collapseWs (c :: rest) = ' ' :: collapseWs (rest.dropWhile isJsSpace) := by
  rw [collapseWs, if_pos h]

theorem normd_space_cons (d : Char) (X : List Char) (hd : isJsSpace d = false) :
    normd (' ' :: d :: X) = normd (d :: X) := by
  simp only [normd]
  rw [if_pos (show isJsSpace ' ' = true from by decide)]
  simp [hd]

theorem normd_collapseWs (u : List Char) (h : lastNonSpace u = true) :
    normd (collapseWs u) = true := by
  induction u using collapseWs.induct with
  | case1 => simp [collapseWs, normd]
  | case2 c rest hc ih =>
    have hrest : rest ≠ [] := by
      rintro rfl
      simp [lastNonSpace, hc] at h
    have hlast : rest.getLast? = (c :: rest).getLast? :=
      (getLast?_cons_ne c rest hrest).symm
    have hlr : lastNonSpace rest = true := by
      rw [lastNonSpace, hlast]
      rw [lastNonSpace] at h
      exact h
    have hr' : rest.dropWhile isJsSpace ≠ [] := by
      intro hnil
      have hall := List.dropWhile_eq_nil_iff.mp hnil
      rcases hg : rest.getLast? with _ | g
      · exact hrest (by simpa using hg)
      · have hgmem : g ∈ rest := List.mem_of_mem_getLast? hg
        rw [lastNonSpace, hg] at hlr
        simp [hall g hgmem] at hlr
    have hlr' : lastNonSpace (rest.dropWhile isJsSpace) = true :=
      lastNonSpace_dropWhile rest hlr
    rw [collapseWs_cons_space c rest hc]
    rcases hd : rest.dropWhile isJsSpace with _ | ⟨d, r'⟩
    · exact absurd hd hr'
    · have hdns : isJsSpace d = false := by
        have hnl := noLeadSpace_dropWhile rest
        rw [hd, noLeadSpace] at hnl
        simpa using hnl
      rw [collapseWs_cons_not_space d r' (by simp [hdns])]
      have hnormd := ih hlr'
      rw [hd, collapseWs_cons_not_space d r' (by simp [hdns])] at hnormd
      rw [normd_space_cons d (collapseWs r') hdns]
      exact hnormd
  | case3 c rest hc ih =>
    have hlr : lastNonSpace rest = true := by
      rcases hrest : rest with _ | ⟨d, r⟩
      · simp [lastNonSpace]
      · rw [← hrest]
        rw [lastNonSpace, getLast?_cons_ne c rest (by simp [hrest])] at h
        rw [lastNonSpace]
        exact h
    rw [collapseWs_cons_not_space c rest hc]
    simp only [normd, if_neg hc]
    exact ih hlr

theorem noLeadSpace_collapseWs (u : List Char) (h : noLeadSpace u = true) :
    noLeadSpace (collapseWs u) = true := by
  rcases u with _ | ⟨c, rest⟩
  · simp [collapseWs, noLeadSpace]
  · rw [noLeadSpace] at h
    simp only [List.head?_cons] at h
    have hc : ¬ isJsSpace c = true := by simpa using h
    rw [collapseWs_cons_not_space c rest hc, noLeadSpace]
    simpa using h

theorem collapseWs_of_normd (l : List Char) (h : normd l = true) :
    collapseWs l = l := by
  induction l using collapseWs.induct with
  | case1 => rw [collapseWs]
  | case2 c rest hc ih =>
    simp only [normd] at h
    rw [if_pos hc] at h
    rcases hrest : rest with _ | ⟨d, r⟩
    · rw [hrest] at h
      simp at h
    · rw [hrest] at h
      simp only [Bool.and_eq_true, beq_iff_eq] at h
      obtain ⟨⟨rfl, hd⟩, hn⟩ := h
      have hdf : isJsSpace d = false := by simpa using hd
      have hdrop : (d :: r).dropWhile isJsSpace = d :: r := by
        rw [List.dropWhile_cons, if_neg (by simp [hdf])]
      rw [collapseWs_cons_space ' ' (d :: r) hc, hdrop]
      have hcoll := ih (by rw [hrest, hdrop]; exact hn)
      rw [hrest, hdrop] at hcoll
      rw [hcoll]
  | case3 c rest hc ih =>
    simp only [normd] at h
    rw [if_neg hc] at h
    rw [collapseWs_cons_not_space c rest hc, ih h]

theorem lastNonSpace_of_normd (l : List Char) (h : normd l = true) :
    lastNonSpace l = true := by
  induction l with
  | nil => simp [lastNonSpace]
  | cons c rest ih =>
    rcases hrest : rest with _ | ⟨d, r⟩
    · subst hrest
      rw [lastNonSpace]
      simp only [List.getLast?_singleton]
      by_cases hc : isJsSpace c = true
      · simp only [normd] at h
        rw [if_pos hc] at h
        simp at h
      · simpa using hc
    · subst hrest
      have hn : normd (d :: r) = true := by
        by_cases hc : isJsSpace c = true
        · simp only [normd] at h
          rw [if_pos hc] at h
          simp only [Bool.and_eq_true] at h
          exact h.2
        · simp only [normd] at h
          rw [if_neg hc] at h
          exact h
      rw [lastNonSpace, getLast?_cons_ne c (d :: r) (by simp)]
      rw [lastNonSpace] at ih
      exact ih hn

theorem dropWhile_of_noLead (l : List Char) (h : noLeadSpace l = true) :
    l.dropWhile isJsSpace = l := by
  rcases l with _ | ⟨c, rest⟩
  · simp
  · rw [noLeadSpace] at h
    simp only [List.head?_cons] at h
    rw [List.dropWhile_cons, if_neg (by simpa using h)]

theorem jsTrim_of_normal (l : List Char) (h1 : noLeadSpace l = true)
    (h2 : normd l = true) : jsTrim l = l := by
  have hlast := lastNonSpace_of_normd l h2
  rw [jsTrim, dropWhile_of_noLead l h1,
    dropWhile_of_noLead l.reverse (by rw [noLeadSpace_reverse]; exact hlast),
    List.reverse_reverse]

/-- Normalization is idempotent: the texts `extractHeadings` produces are
fixed points of trim-and-collapse. -/
theorem normalizeStr_idem (s : String) :
    normalizeStr (normalizeStr s) = normalizeStr s := by
  obtain ⟨hlead, hlast⟩ := jsTrim_noLead_lastNonSpace s.data
  have hnormd := normd_collapseWs (jsTrim s.data) hlast
  have hlead2 := noLeadSpace_collapseWs (jsTrim s.data) hlead
  rw [normalizeStr, normalizeStr]
  rw [show (String.mk (collapseWs (jsTrim s.data))).data = collapseWs (jsTrim s.data) from rfl]
  rw [jsTrim_of_normal _ hlead2 hnormd, collapseWs_of_normd _ hnormd]

theorem HTag.levelOf_bounds (tg : HTag) : 1 ≤ tg.levelOf ∧ tg.levelOf ≤ 6 := by
  cases tg <;> simp [HTag.levelOf]

theorem HeadingNode.toFlat_eta (n : HeadingNode) :
    HeadingNode.toFlat n = ⟨n.id, n.text, n.level⟩ := by
  rcases n with ⟨i, t, l, cs⟩
  simp [HeadingNode.toFlat, HeadingNode.id, HeadingNode.text, HeadingNode.level]

theorem extractFlat_go_eq (elems : List DomHeading) (i : Nat) :
    extractFlat.go i elems
      = ((List.enumFrom i elems).map (fun p => extractOne p.1 p.2)).filter
          (fun f => f.text != "") := by
  induction elems generalizing i with
  | nil => simp [extractFlat.go]
  | cons el rest ih =>
    rw [extractFlat.go, List.enumFrom]
    by_cases h : (extractOne i el).text = ""
    · simp [h, ih]
    · simp [h, ih]

theorem extractFlat_entry_props (elems : List DomHeading)
    (f : FlatHeading) (hf : f ∈ extractFlat elems) :
    f.text ≠ "" ∧ normalizeStr f.text = f.text ∧ 1 ≤ f.level ∧ f.level ≤ 6 := by
  rw [extractFlat, extractFlat_go_eq] at hf
  obtain ⟨hmem, hne⟩ := List.mem_filter.mp hf
  obtain ⟨p, hp, rfl⟩ := List.mem_map.mp hmem
  refine ⟨by simpa using hne, ?_, ?_, ?_⟩
  · rcases htc : p.2.textContent with _ | str
    · exfalso
      simp [extractOne, htc, normalizeText] at hne
    · show normalizeStr (normalizeText p.2.textContent) = normalizeText p.2.textContent
      rw [htc]
      exact normalizeStr_idem str
  · exact (HTag.levelOf_bounds p.2.tag).1
  · exact (HTag.levelOf_bounds p.2.tag).2

/-- C8: every record `extractHeadings` extracts (characterized as the
enumerated, mapped and filtered element list: DOM id or the synthesized
`heading-<index>` counting every matched element, including dropped ones)
has non-empty, trim-and-collapse-normalized text and a level between 1 and
6; the same holds for every node of the resulting tree. -/
theorem extractHeadings_spec (elems : List DomHeading) :
    (extractFlat elems
      = ((elems.enum.map (fun p => extractOne p.1 p.2)).filter
          (fun f => f.text != "")))
    ∧ (∀ f ∈ extractFlat elems,
        f.text ≠ "" ∧ normalizeStr f.text = f.text ∧ 1 ≤ f.level ∧ f.level ≤ 6)
    ∧ (∀ n ∈ flattenTree (extractHeadings elems),
        n.text ≠ "" ∧ normalizeStr n.text = n.text ∧ 1 ≤ n.level ∧ n.level ≤ 6) := by
  refine ⟨?_, extractFlat_entry_props elems, ?_⟩
  · rw [extractFlat, extractFlat_go_eq, List.enum]
  · intro n hn
    have hmem : HeadingNode.toFlat n ∈ extractFlat elems := by
      rw [← flattenTree_buildTree_eq (extractFlat elems)]
      exact List.mem_map_of_mem HeadingNode.toFlat hn
    have hprops := extractFlat_entry_props elems (HeadingNode.toFlat n) hmem
    rwa [HeadingNode.toFlat_eta] at hprops

end BetterHub
